import Mathlib

/-!
# Verification of the ParallelMandelbrot pipeline (src/main.go)

Shallow embedding of the concurrent Mandelbrot renderer.  Pure functions of
the Go source become Lean functions; the goroutine/channel protocol becomes
explicit list-of-events processing and a token-counting transition system.
Go `int` is embedded as `Int` (values in play never overflow 64 bits),
Go `float64`/`complex64` arithmetic is embedded as exact rational
arithmetic on a pair of rationals — every property proved below is
independent of rounding (iteration caps, counts, orders, colors as a
function of the returned iteration count).
-/

/-- Go global `MAX_ITER` (src/main.go line 38). -/
def MAX_ITER : Nat := 255

/-- Go global `IMG_SCALE` (line 39). -/
def IMG_SCALE : Nat := 10

/-- Go global `RE_START` (line 41). -/
def RE_START : ℚ := -2

/-- Go global `RE_END` (line 42). -/
def RE_END : ℚ := 1

/-- Go global `IM_START` (line 43). -/
def IM_START : ℚ := -1

/-- Go global `IM_END` (line 44). -/
def IM_END : ℚ := 1

/-- Go global `bound` (line 45), the escape threshold on `|re z|`. -/
def escapeBound : ℚ := 2

/-- Go global `width` (line 47). -/
def width : Nat := 600 * IMG_SCALE

/-- Go global `height` (line 48). -/
def height : Nat := 400 * IMG_SCALE

/-- Go global `numOfPixels = width * height` (line 49). -/
def numOfPixels : Nat := width * height

/-- Go global `numWorkTasks` (line 51). -/
def numWorkTasks : Nat := 64

/-- Go global `numThreads` (line 52). -/
def numThreads : Nat := 12

/-- Go struct `workRange` (lines 27-29): a work item, the half-open
rectangle `[minX,maxX) × [minY,maxY)` in pixel coordinates. Fields are
`Int` like Go's `int`. -/
structure workRange where
  minX : Int
  maxX : Int
  minY : Int
  maxY : Int
deriving DecidableEq, Repr

/-- Go struct `color.RGBA` as used here (line 75): four 8-bit channels,
each stored as its numeric value in `[0,256)`. -/
structure RGBA where
  r : Nat
  g : Nat
  b : Nat
  a : Nat
deriving DecidableEq, Repr

/-- Go struct `pixel` (lines 31-34): one computed pixel result. -/
structure pixel where
  x : Int
  y : Int
  col : RGBA
deriving DecidableEq, Repr

/-- The list of `Int`s visited by Go's `for v := lo; v < hi; v++`. -/
def intRange (lo hi : Int) : List Int :=
  (List.range (hi - lo).toNat).map (fun k : Nat => lo + (k : Int))

/-- Go's `uint8(v)` conversion of an `int`: truncation to the low 8 bits
(two's complement), i.e. the canonical residue of `v` modulo 256. -/
def uint8OfInt (v : Int) : Nat := (v % 256).toNat

/-- A complex number embedded as a pair of rationals (Go `complex64`,
lines 59-67 and 71-73; exact arithmetic in place of float rounding). -/
structure QComplex where
  re : ℚ
  im : ℚ
deriving DecidableEq, Repr

/-- Complex multiplication, as performed by Go's `z*z` on `complex64`. -/
def cmul (a b : QComplex) : QComplex :=
  ⟨a.re * b.re - a.im * b.im, a.re * b.im + a.im * b.re⟩

/-- Complex addition, as performed by Go's `+` on `complex64`. -/
def cadd (a b : QComplex) : QComplex :=
  ⟨a.re + b.re, a.im + b.im⟩

/-- One loop body step of `mandelbrotCalc` (line 63): `z = z*z + c`. -/
def zStep (c z : QComplex) : QComplex := cadd (cmul z z) c

/-- The orbit `Z(0)=0, Z(n+1)=Z(n)^2+c` of the Mandelbrot recurrence. -/
def zIter (c : QComplex) : Nat → QComplex
  | 0 => ⟨0, 0⟩
  | n + 1 => zStep c (zIter c n)

/-- The loop of Go `mandelbrotCalc` (lines 60-66):
`for math.Abs(real(z)) <= bound && n < MAX_ITER { z = z*z + c; n += 1 }`.
`fuel = MAX_ITER - n` throughout, so `fuel = 0` is exactly `n = MAX_ITER`
and the loop condition `n < MAX_ITER` is the `fuel+1` pattern. -/
def mandelbrotCalcAux (bnd : ℚ) (c : QComplex) : Nat → QComplex → Nat → Nat
  | 0, _, n => n
  | fuel + 1, z, n =>
    if |z.re| ≤ bnd then mandelbrotCalcAux bnd c fuel (zStep c z) (n + 1) else n

/-- Go `mandelbrotCalc` (lines 59-67), parameterized by the globals
`MAX_ITER` and `bound` it reads: starts at `z = 0`, `n = 0` and returns
the final `n`. -/
def mandelbrotCalc (maxIter : Nat) (bnd : ℚ) (c : QComplex) : Nat :=
  mandelbrotCalcAux bnd c maxIter ⟨0, 0⟩ 0

/-- The complex number for pixel `(x,y)` (lines 71-72):
`complex(RE_START + x/width*(RE_END-RE_START), IM_START + y/height*(IM_END-IM_START))`. -/
def coordToC (w h : Nat) (reS reE imS imE : ℚ) (x y : Int) : QComplex :=
  ⟨reS + (x : ℚ) / (w : ℚ) * (reE - reS), imS + (y : ℚ) / (h : ℚ) * (imE - imS)⟩

/-- The color written for an escape count `n` (lines 74-75):
`val = 255 - int(val*255/MAX_ITER); col = color.RGBA{uint8(val), uint8(val), uint8(val), 254}`.
Go `/` on `int` truncates toward zero, hence `Int.tdiv`. -/
def pixelColor (maxIter : Nat) (n : Nat) : RGBA :=
  let v : Int := 255 - Int.tdiv ((n : Int) * 255) (maxIter : Int)
  ⟨uint8OfInt v, uint8OfInt v, uint8OfInt v, 254⟩

/-- Go `calculatorWorker` (lines 68-80), emission part: the sequence of
`pixel` values sent on `pixelBuffer`, in loop order (`x` outer from
`minX` to `maxX`, `y` inner from `minY` to `maxY`).  Parameterized by the
globals (`width`, `height`, `MAX_ITER`, plane bounds, `bound`) it reads. -/
def calculatorWorker (w h maxIter : Nat) (reS reE imS imE bnd : ℚ)
    (work : workRange) : List pixel :=
  (intRange work.minX work.maxX).flatMap (fun x : Int =>
    (intRange work.minY work.maxY).map (fun y : Int =>
      { x := x, y := y,
        col := pixelColor maxIter
          (mandelbrotCalc maxIter bnd (coordToC w h reS reE imS imE x y)) }))

/-- An event observable from one worker goroutine: a send on
`pixelBuffer` (line 76) or the final send on `freeThreads` (line 79). -/
inductive workerEvent where
  | emit (p : pixel)
  | release
deriving DecidableEq, Repr

/-- The full event trace of Go `calculatorWorker` (lines 68-80): all
pixel sends in loop order, then exactly one availability-token release. -/
def calculatorWorkerTrace (w h maxIter : Nat) (reS reE imS imE bnd : ℚ)
    (work : workRange) : List workerEvent :=
  (calculatorWorker w h maxIter reS reE imS imE bnd work).map workerEvent.emit
    ++ [workerEvent.release]

/-- Go `drawingWorker` (lines 81-94) on a stream of arriving pixels:
for each received pixel it performs `image.Set` (recorded in order in the
second component), increments `*pixelCount`, and breaks as soon as the
counter equals `total` (`numOfPixels`).  Returns the final counter, the
pixels written (the exact sequence of `image.Set` calls), and the part of
the stream left unreceived by the break.  The decile progress print (lines
85-87) is a pure console side effect and is not part of the state. -/
def drawingWorker (total : Nat) : List pixel → Nat → Nat × List pixel × List pixel
  | [], count => (count, [], [])
  | p :: rest, count =>
    if count + 1 = total then (count + 1, [p], rest)
    else
      match drawingWorker total rest (count + 1) with
      | (fc, written, leftover) => (fc, p :: written, leftover)

/-- Go `workCreator` (lines 96-112), parameterized by the globals
`width`, `height`, `numWorkTasks` it reads: `r = int(math.Sqrt(N))`
(exactly `Nat.sqrt N`, floor square root), cells of `width/r × height/r`
(integer division), emitted with `i` (the x block) outer and `j` (the y
block) inner. -/
def workCreator (w h numTasks : Nat) : List workRange :=
  let r := Nat.sqrt numTasks
  let ww := w / r
  let wh := h / r
  (List.range r).flatMap (fun i : Nat =>
    (List.range r).map (fun j : Nat =>
      { minX := (i * ww : Int), maxX := ((i + 1) * ww : Int),
        minY := (j * wh : Int), maxY := ((j + 1) * wh : Int) }))

/-- Decidable membership of pixel `(x,y)` in a work range. -/
def containsB (reg : workRange) (x y : Int) : Bool :=
  (decide (reg.minX ≤ x) && decide (x < reg.maxX))
    && (decide (reg.minY ≤ y) && decide (y < reg.maxY))

/-- Go `calculatorWorkerStarter` (lines 114-133), dispatch order: ranging
over the region channel's content, it dispatches each region (after
obtaining an availability token, which the token system below models) and
decrements `workCounter`, returning as soon as the counter reaches 0 —
even if further items were available.  The counter is `Int` like Go's
`int`.  Returns the dispatched regions in dispatch order. -/
def calculatorWorkerStarter : List workRange → Int → List workRange
  | [], _ => []
  | w :: rest, counter =>
    if counter - 1 = 0 then [w]
    else w :: calculatorWorkerStarter rest (counter - 1)

/-- The pixels collectively emitted by the workers over one whole run:
every region of `workCreator`, each processed by `calculatorWorker`.
Concatenation order is one representative interleaving; all counting
statements below are interleaving-invariant. -/
def allPixels (w h numTasks maxIter : Nat) (reS reE imS imE bnd : ℚ) : List pixel :=
  (workCreator w h numTasks).flatMap
    (calculatorWorker w h maxIter reS reE imS imE bnd)

/-- State of the availability-token system: the number of tokens
buffered in the `freeThreads` channel and the number of in-flight
`calculatorWorker` goroutines. -/
structure poolState where
  freeTokens : Nat
  activeWorkers : Nat
deriving DecidableEq, Repr

/-- Events that change the token system.  `dispatch` is the starter's
`<-freeThreads; go calculatorWorker(...)` (lines 120-121); `finish` is a
worker's final `freeThreads <- true` (line 79). -/
inductive poolStep : poolState → poolState → Prop
  | dispatch (t a : Nat) : poolStep ⟨t + 1, a⟩ ⟨t, a + 1⟩
  | finish (t a : Nat) : poolStep ⟨t, a + 1⟩ ⟨t + 1, a⟩

/-- Reachability from the post-preload state: lines 115-117 fill
`freeThreads` with exactly `n = numThreads` tokens before any dispatch,
with no worker yet started. -/
inductive poolReachable (n : Nat) : poolState → Prop
  | init : poolReachable n ⟨n, 0⟩
  | step {s s' : poolState} : poolReachable n s → poolStep s s' → poolReachable n s'

/-- The aggregator's raster (Go `image.RGBA`), as pixel-indexed colors. -/
def Raster := Int → Int → RGBA

/-- Outcome of `os.Create` (line 167). -/
inductive createResult where
  | ok
  | fileError (msg : String)

/-- The output filename (line 166):
`fmt.Sprintf("mandelbrot_%d_%d_%d.png", width, height, MAX_ITER)`. -/
def imageName (w h m : Nat) : String :=
  "mandelbrot_" ++ toString w ++ "_" ++ toString h ++ "_" ++ toString m ++ ".png"

/-- The output phase of `main` (lines 165-175): on file-creation failure
print the error and skip the encode; on success encode the (unchanged)
raster under `imageName`.  First component: the console messages; second:
the encode action performed, if any (filename and raster encoded). -/
def outputPhase (w h m : Nat) (raster : Raster) :
    createResult → List String × Option (String × Raster)
  | createResult.fileError e => (["err: " ++ e], none)
  | createResult.ok =>
    (["Image created: " ++ imageName w h m], some (imageName w h m, raster))

/-- Strict lexicographic order on coordinates with `x` major: the order
in which `calculatorWorker`'s double loop visits its region. -/
def lexLt (u v : Int × Int) : Prop :=
  u.1 < v.1 ∨ (u.1 = v.1 ∧ u.2 < v.2)

/-! ## Generic helper lemmas -/

/-- Concrete values of `Nat.sqrt` via its characterization (usable where
kernel reduction of `Nat.sqrt` is unavailable). -/
theorem sqrt_val {a n : Nat} (h1 : a * a ≤ n) (h2 : n < (a + 1) * (a + 1)) :
    Nat.sqrt n = a := (Nat.eq_sqrt.mpr ⟨h1, h2⟩).symm

/-- Counting one value in `List.range`. -/
theorem countP_range_decide (n a : Nat) :
    (List.range n).countP (fun i => decide (i = a)) = if a < n then 1 else 0 := by
  induction n with
  | zero => simp
  | succ n ih =>
    rw [List.range_succ, List.countP_append, ih, List.countP_singleton]
    simp only [decide_eq_true_eq]
    split_ifs <;> omega

/-- Summing an indicator times a constant counts the satisfying elements. -/
theorem sum_map_ite {α : Type} (l : List α) (p : α → Bool) (c : Nat) :
    (l.map (fun x => if p x then c else 0)).sum = c * l.countP p := by
  induction l with
  | nil => simp
  | cons a l ih =>
    simp only [List.map_cons, List.sum_cons, ih, List.countP_cons]
    cases h : p a <;> simp [h, Nat.mul_add] <;> omega

/-- Summing a constant over a list. -/
theorem sum_map_const {α : Type} (l : List α) (c : Nat) :
    (l.map (fun _ => c)).sum = c * l.length := by
  induction l with
  | nil => simp
  | cons a l ih => simp [ih, Nat.mul_add, Nat.add_comm, Nat.mul_comm]

/-- `countP` over a `flatMap` as a sum of inner counts. -/
theorem countP_flatMap_eq {α β : Type} (l : List α) (f : α → List β) (p : β → Bool) :
    (l.flatMap f).countP p = (l.map (fun a => (f a).countP p)).sum := by
  rw [List.flatMap_def, List.countP_flatten, List.map_map]
  rfl

/-- Length of a `flatMap` as a sum of inner lengths. -/
theorem length_flatMap_eq {α β : Type} (l : List α) (f : α → List β) :
    (l.flatMap f).length = (l.map (fun a => (f a).length)).sum := by
  rw [List.flatMap_def, List.length_flatten, List.map_map]
  rfl

/-- A conjunction with a constant first factor under `countP`. -/
theorem countP_and_const {α : Type} (l : List α) (c : Bool) (q : α → Bool) :
    l.countP (fun x => c && q x) = if c then l.countP q else 0 := by
  cases c <;> simp

theorem length_intRange (lo hi : Int) : (intRange lo hi).length = (hi - lo).toNat := by
  simp [intRange]

theorem mem_intRange {lo hi a : Int} : a ∈ intRange lo hi ↔ lo ≤ a ∧ a < hi := by
  simp only [intRange, List.mem_map, List.mem_range]
  constructor
  · rintro ⟨k, hk, rfl⟩
    omega
  · intro ⟨h1, h2⟩
    exact ⟨(a - lo).toNat, by omega, by omega⟩

theorem pairwise_lt_intRange (lo hi : Int) : (intRange lo hi).Pairwise (· < ·) := by
  unfold intRange
  exact (List.pairwise_lt_range _).map _ (by intro a b hab; omega)

/-- Counting one value in an `intRange`. -/
theorem countP_intRange_decide (lo hi a : Int) :
    (intRange lo hi).countP (fun v => decide (v = a))
      = if lo ≤ a ∧ a < hi then 1 else 0 := by
  rw [intRange, List.countP_map]
  by_cases ha : lo ≤ a
  · have hcongr : ∀ k ∈ List.range (hi - lo).toNat,
        ((fun v => decide (v = a)) ∘ (fun k : Nat => lo + (k : Int))) k = true ↔
          decide (k = (a - lo).toNat) = true := by
      intro k _
      simp only [Function.comp, decide_eq_true_eq]
      omega
    rw [List.countP_congr hcongr, countP_range_decide]
    split_ifs <;> omega
  · rw [List.countP_eq_zero.mpr, if_neg (fun hc => ha hc.1)]
    intro k _
    simp only [Function.comp, decide_eq_true_eq]
    omega

/-- Counting which cell of a `ww`-wide grid contains `x`: exactly one
index `i < r` satisfies `i*ww ≤ x < (i+1)*ww` when `0 ≤ x < r*ww`,
and none otherwise. -/
theorem countP_range_block (r ww : Nat) (hww : 1 ≤ ww) (x : Int) :
    (List.range r).countP
      (fun i : Nat => decide ((i * ww : Int) ≤ x) && decide (x < ((i + 1) * ww : Int)))
      = if 0 ≤ x ∧ x < (r * ww : Int) then 1 else 0 := by
  by_cases hx : 0 ≤ x
  · obtain ⟨m, rfl⟩ : ∃ m : Nat, x = (m : Int) := ⟨x.toNat, by omega⟩
    have hcongr : ∀ i ∈ List.range r,
        (decide ((i * ww : Int) ≤ (m : Int)) && decide ((m : Int) < ((i + 1) * ww : Int))) = true ↔
          decide (i = m / ww) = true := by
      intro i _
      simp only [Bool.and_eq_true, decide_eq_true_eq]
      constructor
      · rintro ⟨h1, h2⟩
        have h1' : i * ww ≤ m := by exact_mod_cast h1
        have h2' : m < (i + 1) * ww := by exact_mod_cast h2
        have hle : i ≤ m / ww := (Nat.le_div_iff_mul_le (by omega)).mpr h1'
        have hlt : m / ww < i + 1 := (Nat.div_lt_iff_lt_mul (by omega)).mpr h2'
        omega
      · rintro rfl
        have h1' : m / ww * ww ≤ m := Nat.div_mul_le_self _ _
        have h2' : m < (m / ww + 1) * ww :=
          (Nat.div_lt_iff_lt_mul (by omega)).mp (Nat.lt_succ_self _)
        exact ⟨by exact_mod_cast h1', by exact_mod_cast h2'⟩
    rw [List.countP_congr hcongr, countP_range_decide]
    have hcond : (m / ww < r) ↔ (0 ≤ (m : Int) ∧ (m : Int) < (r * ww : Int)) := by
      rw [Nat.div_lt_iff_lt_mul (by omega)]
      constructor
      · intro hlt
        exact ⟨by omega, by exact_mod_cast hlt⟩
      · rintro ⟨_, h2⟩
        exact_mod_cast h2
    simp only [hcond]
  · have hz : (List.range r).countP
        (fun i : Nat => decide ((i * ww : Int) ≤ x) && decide (x < ((i + 1) * ww : Int))) = 0 := by
      refine List.countP_eq_zero.mpr ?_
      intro i _ hcontra
      rw [Bool.and_eq_true, decide_eq_true_eq, decide_eq_true_eq] at hcontra
      have hpos : (0 : Int) ≤ (i : Int) * (ww : Int) := by positivity
      exact hx (le_trans hpos hcontra.1)
    rw [hz, if_neg (fun hc => hx hc.1)]

/-- Membership characterization of `workCreator`'s output. -/
theorem workCreator_mem {w h N : Nat} {reg : workRange} :
    reg ∈ workCreator w h N ↔
      ∃ i < Nat.sqrt N, ∃ j < Nat.sqrt N,
        reg = ⟨((i * (w / Nat.sqrt N) : Nat) : Int), (((i + 1) * (w / Nat.sqrt N) : Nat) : Int),
               ((j * (h / Nat.sqrt N) : Nat) : Int), (((j + 1) * (h / Nat.sqrt N) : Nat) : Int)⟩ := by
  simp only [workCreator, List.mem_flatMap, List.mem_map, List.mem_range]
  constructor
  · rintro ⟨i, hi, j, hj, rfl⟩
    exact ⟨i, hi, j, hj, rfl⟩
  · rintro ⟨i, hi, j, hj, rfl⟩
    exact ⟨i, hi, j, hj, rfl⟩

/-- `workCreator` emits exactly `r * r` regions. -/
theorem workCreator_length (w h N : Nat) :
    (workCreator w h N).length = Nat.sqrt N * Nat.sqrt N := by
  rw [workCreator, length_flatMap_eq]
  simp only [List.length_map, List.length_range]
  rw [sum_map_const, List.length_range]

/-- Counting over a rectangular `flatMap`/`map` grid whose predicate
splits as a conjunction of a row test and a column test. -/
theorem countP_flatMap_map {α β γ : Type} (l1 : List α) (l2 : List β)
    (f : α → β → γ) (p : γ → Bool) (A : α → Bool) (B : β → Bool)
    (hp : ∀ a b, p (f a b) = (A a && B b)) :
    (l1.flatMap (fun a => l2.map (f a))).countP p = l1.countP A * l2.countP B := by
  induction l1 with
  | nil => simp
  | cons a l ih =>
    rw [List.flatMap_cons, List.countP_append, ih, List.countP_map,
      show (p ∘ f a) = (fun b => A a && B b) from funext (hp a),
      countP_and_const, List.countP_cons]
    cases hA : A a <;> simp [Nat.add_mul]
    omega

/-- Length of a rectangular `flatMap`/`map` grid. -/
theorem length_flatMap_map {α β γ : Type} (l1 : List α) (l2 : List β)
    (f : α → β → γ) :
    (l1.flatMap (fun a => l2.map (f a))).length = l1.length * l2.length := by
  induction l1 with
  | nil => simp
  | cons a l ih =>
    rw [List.flatMap_cons, List.length_append, List.length_map, ih,
      List.length_cons, Nat.succ_mul, Nat.add_comm]

/-- Grid coverage: each pixel of `[0, r*ww) × [0, r*wh)` lies in exactly
one emitted region, and pixels outside lie in none. -/
theorem workCreator_countP (w h N : Nat) (hww : 1 ≤ w / Nat.sqrt N)
    (hwh : 1 ≤ h / Nat.sqrt N) (x y : Int) :
    (workCreator w h N).countP (fun reg => containsB reg x y)
      = if (0 ≤ x ∧ x < ((Nat.sqrt N * (w / Nat.sqrt N) : Nat) : Int))
            ∧ (0 ≤ y ∧ y < ((Nat.sqrt N * (h / Nat.sqrt N) : Nat) : Int)) then 1 else 0 := by
  rw [workCreator,
    countP_flatMap_map (List.range (Nat.sqrt N)) (List.range (Nat.sqrt N)) _ _
      (fun i : Nat => decide ((i : Int) * ((w / Nat.sqrt N : Nat) : Int) ≤ x)
        && decide (x < ((i : Int) + 1) * ((w / Nat.sqrt N : Nat) : Int)))
      (fun j : Nat => decide ((j : Int) * ((h / Nat.sqrt N : Nat) : Int) ≤ y)
        && decide (y < ((j : Int) + 1) * ((h / Nat.sqrt N : Nat) : Int)))
      (fun i j => by simp [containsB]),
    countP_range_block _ _ hww x, countP_range_block _ _ hwh y]
  have ex : (((Nat.sqrt N) * (w / Nat.sqrt N) : Nat) : Int)
      = ((Nat.sqrt N : Nat) : Int) * ((w / Nat.sqrt N : Nat) : Int) := by push_cast; ring
  have ey : (((Nat.sqrt N) * (h / Nat.sqrt N) : Nat) : Int)
      = ((Nat.sqrt N : Nat) : Int) * ((h / Nat.sqrt N : Nat) : Int) := by push_cast; ring
  rw [ex, ey]
  split_ifs <;> first | rfl | tauto

/-! ## Claims C1 and C7: the partitioner -/

/-- Claim C1: for every valid config with `N ≥ 1`, `workCreator` produces
exactly `r * r` regions (`r = ⌊√N⌋`), each of size `(w/r) × (h/r)` by
integer division, and whenever `r` evenly divides `w` and `h` the regions
tile `[0,w) × [0,h)` exactly: every in-bounds pixel is covered by exactly
one region (hence pairwise-disjoint coverage) and out-of-bounds pixels by
none. -/
theorem workCreator_tiles (w h N : Nat) (hN : 1 ≤ N) (hw : 1 ≤ w) (hh : 1 ≤ h)
    (hdw : Nat.sqrt N ∣ w) (hdh : Nat.sqrt N ∣ h) :
    (workCreator w h N).length = Nat.sqrt N * Nat.sqrt N ∧
    (∀ reg ∈ workCreator w h N,
      reg.maxX - reg.minX = ((w / Nat.sqrt N : Nat) : Int) ∧
      reg.maxY - reg.minY = ((h / Nat.sqrt N : Nat) : Int)) ∧
    (∀ x y : Int,
      (workCreator w h N).countP (fun reg => containsB reg x y)
        = if (0 ≤ x ∧ x < (w : Int)) ∧ (0 ≤ y ∧ y < (h : Int)) then 1 else 0) := by
  have hrw : Nat.sqrt N * (w / Nat.sqrt N) = w := Nat.mul_div_cancel' hdw
  have hrh : Nat.sqrt N * (h / Nat.sqrt N) = h := Nat.mul_div_cancel' hdh
  have hww : 1 ≤ w / Nat.sqrt N := by
    rcases Nat.eq_zero_or_pos (w / Nat.sqrt N) with h0 | h1
    · rw [h0, Nat.mul_zero] at hrw
      omega
    · exact h1
  have hwh : 1 ≤ h / Nat.sqrt N := by
    rcases Nat.eq_zero_or_pos (h / Nat.sqrt N) with h0 | h1
    · rw [h0, Nat.mul_zero] at hrh
      omega
    · exact h1
  refine ⟨workCreator_length w h N, ?_, ?_⟩
  · intro reg hreg
    obtain ⟨i, hi, j, hj, rfl⟩ := workCreator_mem.mp hreg
    constructor
    · dsimp only
      push_cast
      ring
    · dsimp only
      push_cast
      ring
  · intro x y
    rw [workCreator_countP w h N hww hwh x y, hrw, hrh]

/-- Witness for C1 at the concrete config `w = h = 4`, `N = 4` (`r = 2`):
4 regions, pixel `(3,2)` covered exactly once, out-of-bounds `(4,2)` never. -/
theorem workCreator_tiles_witness :
    (workCreator 4 4 4).length = Nat.sqrt 4 * Nat.sqrt 4 ∧
    (workCreator 4 4 4).countP (fun reg => containsB reg 3 2) = 1 ∧
    (workCreator 4 4 4).countP (fun reg => containsB reg 4 2) = 0 := by
  have h4 : Nat.sqrt 4 = 2 := sqrt_val (by decide) (by decide)
  have h := workCreator_tiles 4 4 4 (by decide) (by decide) (by decide)
    (by rw [h4]; decide) (by rw [h4]; decide)
  refine ⟨h.1, ?_, ?_⟩
  · have hc := h.2.2 3 2
    rw [if_pos (by decide)] at hc
    exact hc
  · have hc := h.2.2 4 2
    rw [if_neg (by decide)] at hc
    exact hc

/-- Claim C7 (amended): every region emitted by `workCreator` satisfies
`0 ≤ minX < maxX ≤ width` and `0 ≤ minY < maxY ≤ height` for every config
with `N ≥ 1` whose grid side `r = ⌊√N⌋` satisfies `r ≤ width` and
`r ≤ height` (so each cell is at least one pixel wide and tall); without
that extra bound the cells degenerate, see the counterexample. -/
theorem workCreator_region_invariant (w h N : Nat) (hN : 1 ≤ N)
    (hw : Nat.sqrt N ≤ w) (hh : Nat.sqrt N ≤ h) :
    ∀ reg ∈ workCreator w h N,
      (0 ≤ reg.minX ∧ reg.minX < reg.maxX ∧ reg.maxX ≤ (w : Int)) ∧
      (0 ≤ reg.minY ∧ reg.minY < reg.maxY ∧ reg.maxY ≤ (h : Int)) := by
  have hr : 1 ≤ Nat.sqrt N := Nat.sqrt_pos.mpr hN
  have hww : 1 ≤ w / Nat.sqrt N := (Nat.one_le_div_iff (by omega)).mpr hw
  have hwh : 1 ≤ h / Nat.sqrt N := (Nat.one_le_div_iff (by omega)).mpr hh
  intro reg hreg
  obtain ⟨i, hi, j, hj, rfl⟩ := workCreator_mem.mp hreg
  have bx : (i + 1) * (w / Nat.sqrt N) ≤ w := by
    calc (i + 1) * (w / Nat.sqrt N) ≤ Nat.sqrt N * (w / Nat.sqrt N) :=
          Nat.mul_le_mul_right _ hi
    _ ≤ w := by
          rw [Nat.mul_comm]
          exact Nat.div_mul_le_self w _
  have by' : (j + 1) * (h / Nat.sqrt N) ≤ h := by
    calc (j + 1) * (h / Nat.sqrt N) ≤ Nat.sqrt N * (h / Nat.sqrt N) :=
          Nat.mul_le_mul_right _ hj
    _ ≤ h := by
          rw [Nat.mul_comm]
          exact Nat.div_mul_le_self h _
  have sx : i * (w / Nat.sqrt N) < (i + 1) * (w / Nat.sqrt N) := by
    have he : (i + 1) * (w / Nat.sqrt N) = i * (w / Nat.sqrt N) + w / Nat.sqrt N := by
      ring
    omega
  have sy : j * (h / Nat.sqrt N) < (j + 1) * (h / Nat.sqrt N) := by
    have he : (j + 1) * (h / Nat.sqrt N) = j * (h / Nat.sqrt N) + h / Nat.sqrt N := by
      ring
    omega
  refine ⟨⟨?_, ?_, ?_⟩, ?_, ?_, ?_⟩ <;> dsimp only
  · positivity
  · exact_mod_cast sx
  · exact_mod_cast bx
  · positivity
  · exact_mod_cast sy
  · exact_mod_cast by'

/-- Counterexample to C7 as frozen: the config `w = h = 2`, `N = 9` is a
valid config with `N ≥ 1`, yet `r = 3 > 2` gives cell width
`2 / 3 = 0`, so every emitted region is degenerate (`minX = maxX`),
violating the claimed strict invariant. -/
theorem claim7_counterexample :
    ¬ (∀ reg ∈ workCreator 2 2 9,
        (0 ≤ reg.minX ∧ reg.minX < reg.maxX ∧ reg.maxX ≤ ((2 : Nat) : Int)) ∧
        (0 ≤ reg.minY ∧ reg.minY < reg.maxY ∧ reg.maxY ≤ ((2 : Nat) : Int))) := by
  have h9 : Nat.sqrt 9 = 3 := sqrt_val (by decide) (by decide)
  simp only [workCreator, h9]
  decide

/-- Witness for the amended C7 at `w = h = 4`, `N = 4`: the region
`[0,2) × [0,2)` is emitted and satisfies the invariant. -/
theorem claim7_witness :
    (0 ≤ (workRange.mk 0 2 0 2).minX ∧ (workRange.mk 0 2 0 2).minX < (workRange.mk 0 2 0 2).maxX
        ∧ (workRange.mk 0 2 0 2).maxX ≤ ((4 : Nat) : Int)) ∧
    (0 ≤ (workRange.mk 0 2 0 2).minY ∧ (workRange.mk 0 2 0 2).minY < (workRange.mk 0 2 0 2).maxY
        ∧ (workRange.mk 0 2 0 2).maxY ≤ ((4 : Nat) : Int)) := by
  have h4 : Nat.sqrt 4 = 2 := sqrt_val (by decide) (by decide)
  have hmem : workRange.mk 0 2 0 2 ∈ workCreator 4 4 4 := by
    simp only [workCreator, h4]
    decide
  exact workCreator_region_invariant 4 4 4 (by decide) (by rw [h4]; decide)
    (by rw [h4]; decide) _ hmem

/-! ## Worker emission lemmas -/

/-- The worker emits exactly one pixel result per coordinate of its
region, and none outside it. -/
theorem calculatorWorker_countP (w h maxIter : Nat) (reS reE imS imE bnd : ℚ)
    (work : workRange) (a b : Int) :
    (calculatorWorker w h maxIter reS reE imS imE bnd work).countP
      (fun p => decide (p.x = a) && decide (p.y = b))
      = if containsB work a b then 1 else 0 := by
  rw [calculatorWorker,
    countP_flatMap_map (intRange work.minX work.maxX) (intRange work.minY work.maxY) _ _
      (fun x : Int => decide (x = a)) (fun y : Int => decide (y = b))
      (fun x y => rfl),
    countP_intRange_decide, countP_intRange_decide]
  simp only [containsB, Bool.and_eq_true, decide_eq_true_eq]
  split_ifs <;> first | rfl | tauto

/-- The worker emits exactly `(maxX-minX) * (maxY-minY)` pixel results. -/
theorem calculatorWorker_length (w h maxIter : Nat) (reS reE imS imE bnd : ℚ)
    (work : workRange) :
    (calculatorWorker w h maxIter reS reE imS imE bnd work).length
      = (work.maxX - work.minX).toNat * (work.maxY - work.minY).toNat := by
  rw [calculatorWorker, length_flatMap_map, length_intRange, length_intRange]

/-- Collective coverage: the whole run emits each coordinate as often as
the partitioner covers it. -/
theorem allPixels_countP (w h N maxIter : Nat) (reS reE imS imE bnd : ℚ) (a b : Int) :
    (allPixels w h N maxIter reS reE imS imE bnd).countP
        (fun p => decide (p.x = a) && decide (p.y = b))
      = (workCreator w h N).countP (fun reg => containsB reg a b) := by
  have hmapeq : (workCreator w h N).map
        (fun reg => (calculatorWorker w h maxIter reS reE imS imE bnd reg).countP
          (fun p => decide (p.x = a) && decide (p.y = b)))
      = (workCreator w h N).map (fun reg => if containsB reg a b then 1 else 0) :=
    List.map_congr_left
      (fun reg _ => calculatorWorker_countP w h maxIter reS reE imS imE bnd reg a b)
  rw [allPixels, countP_flatMap_eq, hmapeq, sum_map_ite, Nat.one_mul]

/-- Collective count: with `r ∣ w` and `r ∣ h` the workers emit exactly
`w * h` pixel results over a run. -/
theorem allPixels_length (w h N maxIter : Nat) (reS reE imS imE bnd : ℚ)
    (hN : 1 ≤ N) (hdw : Nat.sqrt N ∣ w) (hdh : Nat.sqrt N ∣ h) :
    (allPixels w h N maxIter reS reE imS imE bnd).length = w * h := by
  have hrw : Nat.sqrt N * (w / Nat.sqrt N) = w := Nat.mul_div_cancel' hdw
  have hrh : Nat.sqrt N * (h / Nat.sqrt N) = h := Nat.mul_div_cancel' hdh
  have hcong : ∀ reg ∈ workCreator w h N,
      (calculatorWorker w h maxIter reS reE imS imE bnd reg).length
        = (w / Nat.sqrt N) * (h / Nat.sqrt N) := by
    intro reg hreg
    obtain ⟨i, hi, j, hj, rfl⟩ := workCreator_mem.mp hreg
    rw [calculatorWorker_length]
    dsimp only
    have e1 : (((i + 1) * (w / Nat.sqrt N) : Nat) : Int) - ((i * (w / Nat.sqrt N) : Nat) : Int)
        = ((w / Nat.sqrt N : Nat) : Int) := by
      push_cast
      ring
    have e2 : (((j + 1) * (h / Nat.sqrt N) : Nat) : Int) - ((j * (h / Nat.sqrt N) : Nat) : Int)
        = ((h / Nat.sqrt N : Nat) : Int) := by
      push_cast
      ring
    rw [e1, e2, Int.toNat_ofNat, Int.toNat_ofNat]
  have hmapeq : (workCreator w h N).map
        (fun reg => (calculatorWorker w h maxIter reS reE imS imE bnd reg).length)
      = (workCreator w h N).map (fun _ => (w / Nat.sqrt N) * (h / Nat.sqrt N)) :=
    List.map_congr_left hcong
  rw [allPixels, length_flatMap_eq, hmapeq, sum_map_const, workCreator_length]
  calc (w / Nat.sqrt N * (h / Nat.sqrt N)) * (Nat.sqrt N * Nat.sqrt N)
      = (Nat.sqrt N * (w / Nat.sqrt N)) * (Nat.sqrt N * (h / Nat.sqrt N)) := by ring
  _ = w * h := by rw [hrw, hrh]

/-! ## Aggregator lemmas -/

/-- Full characterization of the aggregator loop: starting below the
total, it consumes exactly `min total (c + |s|) - c` pixels, the counter
advances by exactly the number consumed, and the rest is left pending. -/
theorem drawingWorker_spec :
    ∀ (s : List pixel) (total c : Nat), c < total →
      (drawingWorker total s c).1 = min total (c + s.length) ∧
      (drawingWorker total s c).2.1 = s.take (min total (c + s.length) - c) ∧
      (drawingWorker total s c).2.2 = s.drop (min total (c + s.length) - c) := by
  intro s
  induction s with
  | nil =>
    intro total c hc
    have hmin : min total (c + List.length ([] : List pixel)) = c := by
      simp only [List.length_nil]
      omega
    have hz : min total (c + List.length ([] : List pixel)) - c = 0 := by
      omega
    refine ⟨?_, ?_, ?_⟩
    · rw [hmin]
      rfl
    · rw [hz]
      rfl
    · rw [hz]
      rfl
  | cons p rest ih =>
    intro total c hc
    by_cases hdone : c + 1 = total
    · have hthis : drawingWorker total (p :: rest) c = (c + 1, [p], rest) := by
        simp only [drawingWorker, if_pos hdone]
      have hm1 : min total (c + (p :: rest).length) = c + 1 := by
        simp only [List.length_cons]
        omega
      have hm2 : min total (c + (p :: rest).length) - c = 0 + 1 := by
        simp only [List.length_cons]
        omega
      refine ⟨?_, ?_, ?_⟩ <;> rw [hthis]
      · rw [hm1]
      · rw [hm2, List.take_succ_cons, List.take_zero]
      · rw [hm2, List.drop_succ_cons, List.drop_zero]
    · have hlt : c + 1 < total := by omega
      rcases hdw : drawingWorker total rest (c + 1) with ⟨fc, written, leftover⟩
      obtain ⟨ih1, ih2, ih3⟩ := ih total (c + 1) hlt
      rw [hdw] at ih1 ih2 ih3
      simp only at ih1 ih2 ih3
      have hthis : drawingWorker total (p :: rest) c = (fc, p :: written, leftover) := by
        simp only [drawingWorker, if_neg hdone, hdw]
      have hm : min total (c + (p :: rest).length) = min total ((c + 1) + rest.length) := by
        simp only [List.length_cons]
        omega
      have hk : min total ((c + 1) + rest.length) - c
          = (min total ((c + 1) + rest.length) - (c + 1)) + 1 := by
        omega
      refine ⟨?_, ?_, ?_⟩ <;> rw [hthis]
      · rw [hm]
        exact ih1
      · show p :: written = (p :: rest).take (min total (c + (p :: rest).length) - c)
        rw [hm, hk, List.take_succ_cons, ih2]
      · show leftover = (p :: rest).drop (min total (c + (p :: rest).length) - c)
        rw [hm, hk, List.drop_succ_cons, ih3]

/-! ## Claim C3: the aggregator's counter and termination -/

/-- Claim C3: the aggregator's counter always equals the number of pixels
consumed so far, never exceeds `total = width*height`, and when at least
`total` pixels arrive the receive loop stops exactly at counter `total`,
leaving any further arrivals pending in the stream (deliberate
short-circuit). -/
theorem claim3 (total : Nat) (htotal : 1 ≤ total) :
    (∀ s : List pixel,
      (drawingWorker total s 0).1 = (drawingWorker total s 0).2.1.length ∧
      (drawingWorker total s 0).1 = min total s.length ∧
      (drawingWorker total s 0).1 ≤ total) ∧
    (∀ s : List pixel, total ≤ s.length →
      drawingWorker total s 0 = (total, s.take total, s.drop total)) := by
  constructor
  · intro s
    obtain ⟨h1, h2, h3⟩ := drawingWorker_spec s total 0 (by omega)
    refine ⟨?_, ?_, ?_⟩
    · rw [h1, h2, List.length_take]
      omega
    · rw [h1]
      omega
    · rw [h1]
      omega
  · intro s hs
    obtain ⟨h1, h2, h3⟩ := drawingWorker_spec s total 0 (by omega)
    have hm : min total (0 + s.length) = total := by omega
    have ht : total - 0 = total := by omega
    rw [hm] at h1 h2 h3
    rw [ht] at h2 h3
    rcases he : drawingWorker total s 0 with ⟨a, bb, cc⟩
    rw [he] at h1 h2 h3
    simp only at h1 h2 h3
    rw [h1, h2, h3]

/-- Witness for C3: `total = 2` on a 3-pixel stream; the loop stops at
counter 2 with the third pixel left pending. -/
theorem claim3_witness :
    (drawingWorker 2 [⟨0, 0, ⟨1, 1, 1, 254⟩⟩, ⟨0, 1, ⟨2, 2, 2, 254⟩⟩, ⟨1, 0, ⟨3, 3, 3, 254⟩⟩] 0).1
        = 2 ∧
    drawingWorker 2 [⟨0, 0, ⟨1, 1, 1, 254⟩⟩, ⟨0, 1, ⟨2, 2, 2, 254⟩⟩, ⟨1, 0, ⟨3, 3, 3, 254⟩⟩] 0
        = (2, [⟨0, 0, ⟨1, 1, 1, 254⟩⟩, ⟨0, 1, ⟨2, 2, 2, 254⟩⟩], [⟨1, 0, ⟨3, 3, 3, 254⟩⟩]) := by
  have h := claim3 2 (by decide)
  constructor
  · exact ((h.1 _).2.1).trans (by decide)
  · exact (h.2 _ (by decide)).trans (by decide)

/-! ## Claim C2: collectively exactly one PixelResult per image pixel -/

/-- Claim C2: over a complete run with config `N ≥ 1`, `r ∣ w`, `r ∣ h`
(as in the shipped configuration `6000 × 4000`, `N = 64`, `r = 8`), the
workers collectively emit exactly `w * h` PixelResults, hitting every
in-bounds coordinate exactly once and no coordinate twice; consequently,
for any arrival order of those results, the aggregator writes each pixel
exactly once and consumes the entire stream before signalling completion. -/
theorem claim2 (w h N maxIter : Nat) (reS reE imS imE bnd : ℚ)
    (hN : 1 ≤ N) (hw : 1 ≤ w) (hh : 1 ≤ h)
    (hdw : Nat.sqrt N ∣ w) (hdh : Nat.sqrt N ∣ h) :
    (allPixels w h N maxIter reS reE imS imE bnd).length = w * h ∧
    (∀ a b : Int,
      (allPixels w h N maxIter reS reE imS imE bnd).countP
          (fun p => decide (p.x = a) && decide (p.y = b))
        = if (0 ≤ a ∧ a < (w : Int)) ∧ (0 ≤ b ∧ b < (h : Int)) then 1 else 0) ∧
    (∀ s : List pixel, List.Perm s (allPixels w h N maxIter reS reE imS imE bnd) →
      (∀ a b : Int, s.countP (fun p => decide (p.x = a) && decide (p.y = b))
          = if (0 ≤ a ∧ a < (w : Int)) ∧ (0 ≤ b ∧ b < (h : Int)) then 1 else 0) ∧
      drawingWorker (w * h) s 0 = (w * h, s, [])) := by
  have hrw : Nat.sqrt N * (w / Nat.sqrt N) = w := Nat.mul_div_cancel' hdw
  have hrh : Nat.sqrt N * (h / Nat.sqrt N) = h := Nat.mul_div_cancel' hdh
  have hww : 1 ≤ w / Nat.sqrt N := by
    rcases Nat.eq_zero_or_pos (w / Nat.sqrt N) with h0 | h1
    · rw [h0, Nat.mul_zero] at hrw
      omega
    · exact h1
  have hwh : 1 ≤ h / Nat.sqrt N := by
    rcases Nat.eq_zero_or_pos (h / Nat.sqrt N) with h0 | h1
    · rw [h0, Nat.mul_zero] at hrh
      omega
    · exact h1
  have hcover : ∀ a b : Int,
      (allPixels w h N maxIter reS reE imS imE bnd).countP
          (fun p => decide (p.x = a) && decide (p.y = b))
        = if (0 ≤ a ∧ a < (w : Int)) ∧ (0 ≤ b ∧ b < (h : Int)) then 1 else 0 := by
    intro a b
    rw [allPixels_countP, workCreator_countP w h N hww hwh a b, hrw, hrh]
  have hlen := allPixels_length w h N maxIter reS reE imS imE bnd hN hdw hdh
  refine ⟨hlen, hcover, ?_⟩
  intro s hperm
  constructor
  · intro a b
    rw [hperm.countP_eq, hcover a b]
  · have hslen : s.length = w * h := by
      rw [hperm.length_eq, hlen]
    have htpos : 1 ≤ w * h := Nat.mul_pos hw hh
    have hdw3 := drawingWorker_spec s (w * h) 0 (by omega)
    obtain ⟨h1, h2, h3⟩ := hdw3
    have hm : min (w * h) (0 + s.length) = w * h := by omega
    have ht : w * h - 0 = w * h := by omega
    rw [hm] at h1 h2 h3
    rw [ht] at h2 h3
    have e1 : s.take (w * h) = s := by
      rw [← hslen]
      exact List.take_length s
    have e2 : s.drop (w * h) = [] := by
      rw [← hslen]
      exact List.drop_length s
    rw [e1] at h2
    rw [e2] at h3
    rcases he : drawingWorker (w * h) s 0 with ⟨a, bb, cc⟩
    rw [he] at h1 h2 h3
    simp only at h1 h2 h3
    rw [h1, h2, h3]

/-- Witness for C2 at `w = h = 2`, `N = 1`, `maxIter = 1`: 4 pixels, the
coordinate `(1,0)` emitted exactly once, and the aggregator consumes the
whole stream ending exactly at counter 4. -/
theorem claim2_witness :
    (allPixels 2 2 1 1 0 0 0 0 0).length = 2 * 2 ∧
    (allPixels 2 2 1 1 0 0 0 0 0).countP
        (fun p => decide (p.x = 1) && decide (p.y = 0)) = 1 ∧
    drawingWorker (2 * 2) (allPixels 2 2 1 1 0 0 0 0 0) 0
      = (2 * 2, allPixels 2 2 1 1 0 0 0 0 0, []) := by
  have h1 : Nat.sqrt 1 = 1 := sqrt_val (by decide) (by decide)
  have h := claim2 2 2 1 1 0 0 0 0 0 (by decide) (by decide) (by decide)
    (by rw [h1]; decide) (by rw [h1]; decide)
  refine ⟨h.1, ?_, ?_⟩
  · have hc := h.2.1 1 0
    rw [if_pos (by decide)] at hc
    exact hc
  · exact (h.2.2 (allPixels 2 2 1 1 0 0 0 0 0) (List.Perm.refl _)).2

/-! ## Claim C4: bounded worker concurrency -/

/-- The token-conservation invariant of the availability channel:
buffered tokens plus in-flight workers always equal `numThreads`. -/
theorem poolReachable_invariant {n : Nat} {s : poolState} (h : poolReachable n s) :
    s.freeTokens + s.activeWorkers = n := by
  induction h with
  | init => rfl
  | step hr hstep ih =>
    cases hstep <;> simp_all <;> omega

/-- Claim C4: in every state reachable from the preloaded channel
(`numThreads` tokens, no active worker) by dispatches (consume one token,
start one worker) and finishes (worker returns its token), the number of
in-flight workers never exceeds `numThreads`. -/
theorem claim4 (n : Nat) (s : poolState) (h : poolReachable n s) :
    s.activeWorkers ≤ n := by
  have := poolReachable_invariant h
  omega

/-- Witness for C4: with `numThreads = 12`, after one dispatch the state
`⟨11, 1⟩` is reachable and `1 ≤ 12`. -/
theorem claim4_witness : (poolState.mk 11 1).activeWorkers ≤ 12 :=
  claim4 12 ⟨11, 1⟩ (poolReachable.step poolReachable.init (poolStep.dispatch 11 0))

/-! ## Claim C5: the dispatcher -/

/-- The dispatch loop consumes exactly the first `|l|` buffered items
when started with counter `|l| ≥ 1`, dispatching them in order and
returning immediately after the last one — whatever else (`extra`) might
sit behind them in the buffer. -/
theorem calculatorWorkerStarter_all :
    ∀ (l extra : List workRange), 1 ≤ l.length →
      calculatorWorkerStarter (l ++ extra) (l.length : Int) = l := by
  intro l
  induction l with
  | nil =>
    intro extra h
    simp at h
  | cons wreg rest ih =>
    intro extra h
    cases rest with
    | nil => simp [calculatorWorkerStarter]
    | cons w2 rest2 =>
      have hstep : ∀ (buf : List workRange) (wfirst : workRange) (counter : Int),
          calculatorWorkerStarter (wfirst :: buf) counter
            = if counter - 1 = 0 then [wfirst]
              else wfirst :: calculatorWorkerStarter buf (counter - 1) :=
        fun _ _ _ => rfl
      have hlen : ((List.length (wreg :: w2 :: rest2) : Int)) - 1
          = (List.length (w2 :: rest2) : Int) := by
        simp only [List.length_cons]
        push_cast
        ring
      have hne : ((List.length (wreg :: w2 :: rest2) : Int)) - 1 ≠ 0 := by
        rw [hlen]
        simp only [List.length_cons]
        push_cast
        omega
      rw [List.cons_append, hstep, if_neg hne, hlen, ih extra (by simp)]

/-- Claim C5: when `N` is a perfect square (as in the shipped config
`N = 64`; otherwise `r*r < N` and the Go loop would block forever on the
empty region channel), the dispatcher dispatches every region produced by
the partitioner exactly once, in emission order, and stops issuing work
right after the last region even if more items were buffered. -/
theorem claim5 (w h N : Nat) (hN : 1 ≤ N) (hsq : Nat.sqrt N * Nat.sqrt N = N) :
    calculatorWorkerStarter (workCreator w h N) (N : Int) = workCreator w h N ∧
    (∀ extra : List workRange,
      calculatorWorkerStarter (workCreator w h N ++ extra) (N : Int)
        = workCreator w h N) := by
  have hlen : (workCreator w h N).length = N := by
    rw [workCreator_length, hsq]
  have hone : 1 ≤ (workCreator w h N).length := by omega
  constructor
  · have hthis := calculatorWorkerStarter_all (workCreator w h N) [] hone
    rw [List.append_nil] at hthis
    rw [hlen] at hthis
    exact hthis
  · intro extra
    have hthis := calculatorWorkerStarter_all (workCreator w h N) extra hone
    rw [hlen] at hthis
    exact hthis

/-- Witness for C5 at `w = h = 2`, `N = 4`: all four regions dispatched
in order, an extra buffered item is never dispatched. -/
theorem claim5_witness :
    calculatorWorkerStarter (workCreator 2 2 4) ((4 : Nat) : Int) = workCreator 2 2 4 ∧
    calculatorWorkerStarter (workCreator 2 2 4 ++ [workRange.mk 7 8 7 8]) ((4 : Nat) : Int)
      = workCreator 2 2 4 := by
  have h4 : Nat.sqrt 4 = 2 := sqrt_val (by decide) (by decide)
  have h := claim5 2 2 4 (by decide) (by rw [h4])
  exact ⟨h.1, h.2 [workRange.mk 7 8 7 8]⟩

/-! ## Claim C6: one worker's emission order and token release -/

/-- Claim C6: for any region, the worker's event trace releases its
availability token exactly once and only after the last pixel send; it
emits exactly one PixelResult per coordinate of the region (none
outside); and the emitted coordinates are strictly increasing in the
deterministic order of the nested loops — lexicographic in `(x, y)` with
the outer loop variable `x` major, exactly as the spec writes the tuple. -/
theorem claim6 (w h maxIter : Nat) (reS reE imS imE bnd : ℚ) (work : workRange) :
    (calculatorWorkerTrace w h maxIter reS reE imS imE bnd work).getLast?
        = some workerEvent.release ∧
    (calculatorWorkerTrace w h maxIter reS reE imS imE bnd work).countP
        (fun e => decide (e = workerEvent.release)) = 1 ∧
    (∀ a b : Int,
      (calculatorWorker w h maxIter reS reE imS imE bnd work).countP
          (fun p => decide (p.x = a) && decide (p.y = b))
        = if containsB work a b then 1 else 0) ∧
    ((calculatorWorker w h maxIter reS reE imS imE bnd work).map
        (fun p => (p.x, p.y))).Pairwise lexLt := by
  refine ⟨?_, ?_, ?_, ?_⟩
  · rw [calculatorWorkerTrace]
    exact List.getLast?_concat _
  · rw [calculatorWorkerTrace, List.countP_append]
    have h1 : ((calculatorWorker w h maxIter reS reE imS imE bnd work).map
        workerEvent.emit).countP (fun e => decide (e = workerEvent.release)) = 0 := by
      rw [List.countP_map]
      refine List.countP_eq_zero.mpr ?_
      intro p _
      simp
    have h2 : ([workerEvent.release] : List workerEvent).countP
        (fun e => decide (e = workerEvent.release)) = 1 := by decide
    rw [h1, h2]
  · intro a b
    exact calculatorWorker_countP w h maxIter reS reE imS imE bnd work a b
  · rw [calculatorWorker, List.map_flatMap]
    simp only [List.map_map, Function.comp_def]
    refine List.pairwise_flatMap.mpr ⟨?_, ?_⟩
    · intro x _
      exact (pairwise_lt_intRange work.minY work.maxY).map _
        (fun a b hab => Or.inr ⟨rfl, hab⟩)
    · refine (pairwise_lt_intRange work.minX work.maxX).imp ?_
      intro x1 x2 hx u hu v hv
      obtain ⟨y1, _, rfl⟩ := List.mem_map.mp hu
      obtain ⟨y2, _, rfl⟩ := List.mem_map.mp hv
      exact Or.inl hx

/-! ## Claim C8: totality and range of the pixel computer -/

/-- The loop counter advances by at most the remaining fuel. -/
theorem mandelbrotCalcAux_le (bnd : ℚ) (c : QComplex) :
    ∀ (fuel : Nat) (z : QComplex) (n : Nat),
      mandelbrotCalcAux bnd c fuel z n ≤ n + fuel := by
  intro fuel
  induction fuel with
  | zero =>
    intro z n
    simp [mandelbrotCalcAux]
  | succ f ih =>
    intro z n
    simp only [mandelbrotCalcAux]
    split_ifs with hcond
    · have := ih (zStep c z) (n + 1)
      omega
    · omega

/-- The escape-characterization of the loop: starting at step `n` with
the true orbit value, every step strictly before the returned index
satisfied the escape test, and if the loop stopped before exhausting its
fuel then the test failed at the returned index. -/
theorem mandelbrotCalcAux_spec (bnd : ℚ) (c : QComplex) :
    ∀ (fuel n : Nat),
      (∀ k, n ≤ k → k < mandelbrotCalcAux bnd c fuel (zIter c n) n →
        |(zIter c k).re| ≤ bnd) ∧
      (mandelbrotCalcAux bnd c fuel (zIter c n) n < n + fuel →
        bnd < |(zIter c (mandelbrotCalcAux bnd c fuel (zIter c n) n)).re|) := by
  intro fuel
  induction fuel with
  | zero =>
    intro n
    constructor
    · intro k hk1 hk2
      simp only [mandelbrotCalcAux] at hk2
      exact absurd hk2 (Nat.not_lt.mpr hk1)
    · intro hlt
      simp only [mandelbrotCalcAux] at hlt
      omega
  | succ f ih =>
    intro n
    by_cases hcond : |(zIter c n).re| ≤ bnd
    · have hval : mandelbrotCalcAux bnd c (f + 1) (zIter c n) n
          = mandelbrotCalcAux bnd c f (zIter c (n + 1)) (n + 1) := by
        rw [show mandelbrotCalcAux bnd c (f + 1) (zIter c n) n
            = if |(zIter c n).re| ≤ bnd
              then mandelbrotCalcAux bnd c f (zStep c (zIter c n)) (n + 1)
              else n from rfl, if_pos hcond]
        rfl
      obtain ⟨ih1, ih2⟩ := ih (n + 1)
      constructor
      · intro k hk1 hk2
        rw [hval] at hk2
        rcases Nat.eq_or_lt_of_le hk1 with heq | hgt
        · exact heq ▸ hcond
        · exact ih1 k hgt hk2
      · intro hlt
        rw [hval] at hlt ⊢
        exact ih2 (by omega)
    · have hval : mandelbrotCalcAux bnd c (f + 1) (zIter c n) n = n := by
        rw [show mandelbrotCalcAux bnd c (f + 1) (zIter c n) n
            = if |(zIter c n).re| ≤ bnd
              then mandelbrotCalcAux bnd c f (zStep c (zIter c n)) (n + 1)
              else n from rfl, if_neg hcond]
      constructor
      · intro k hk1 hk2
        rw [hval] at hk2
        exact absurd hk2 (Nat.not_lt.mpr hk1)
      · intro _
        rw [hval]
        exact not_le.mp hcond

/-- Claim C8: the pixel computer is total (a terminating function) and
returns the escape iteration count: an `n` with `0 ≤ n ≤ maxIter` such
that every orbit value strictly before step `n` passed the escape test
`|re z| ≤ bound`, and — unless the bound itself was returned — the test
fails at step `n`. -/
theorem claim8 (maxIter : Nat) (bnd : ℚ) (c : QComplex) :
    mandelbrotCalc maxIter bnd c ≤ maxIter ∧
    (∀ k, k < mandelbrotCalc maxIter bnd c → |(zIter c k).re| ≤ bnd) ∧
    (mandelbrotCalc maxIter bnd c < maxIter →
      bnd < |(zIter c (mandelbrotCalc maxIter bnd c)).re|) := by
  have h0 : mandelbrotCalc maxIter bnd c
      = mandelbrotCalcAux bnd c maxIter (zIter c 0) 0 := rfl
  obtain ⟨h1, h2⟩ := mandelbrotCalcAux_spec bnd c maxIter 0
  refine ⟨?_, ?_, ?_⟩
  · have hle := mandelbrotCalcAux_le bnd c maxIter (zIter c 0) 0
    rw [h0]
    omega
  · intro k hk
    rw [h0] at hk
    exact h1 k (Nat.zero_le k) hk
  · intro hlt
    rw [h0] at hlt ⊢
    exact h2 (by omega)

/-- Witness for C8: for `c = 3` (real axis), `maxIter = 2`, the loop
escapes after exactly one iteration, within the bound. -/
theorem claim8_witness :
    mandelbrotCalc 2 2 ⟨3, 0⟩ ≤ 2 ∧
    (2 : ℚ) < |(zIter ⟨3, 0⟩ (mandelbrotCalc 2 2 ⟨3, 0⟩)).re| := by
  refine ⟨(claim8 2 2 ⟨3, 0⟩).1, (claim8 2 2 ⟨3, 0⟩).2.2 ?_⟩
  norm_num [mandelbrotCalc, mandelbrotCalcAux, zStep, cmul, cadd]

/-! ## Claim C9: the output phase -/

/-- Claim C9: if file creation fails, the error is reported and the
encode step is never attempted (the run still returns normally, just
without an artifact); if it succeeds, the raster — exactly as computed,
unchanged — is encoded under the name
`mandelbrot_<width>_<height>_<iterationBound>.png`.  In both branches the
raster passed in is the only raster involved. -/
theorem claim9 (w h m : Nat) (raster : Raster) (res : createResult) :
    ((∃ e, res = createResult.fileError e) → (outputPhase w h m raster res).2 = none) ∧
    (res = createResult.ok →
      (outputPhase w h m raster res).2 = some (imageName w h m, raster)) ∧
    ((outputPhase w h m raster res).2 = none ∨
      (outputPhase w h m raster res).2 = some (imageName w h m, raster)) ∧
    imageName w h m
      = "mandelbrot_" ++ toString w ++ "_" ++ toString h ++ "_" ++ toString m ++ ".png" := by
  cases res <;> simp [outputPhase, imageName]

/-- Witness for C9: a failing create at the shipped dimensions encodes
nothing; a successful one encodes exactly the raster that was passed. -/
theorem claim9_witness :
    (outputPhase 6000 4000 255 (fun _ _ => ⟨0, 0, 0, 254⟩) (createResult.fileError "no space")).2
        = none ∧
    (outputPhase 6000 4000 255 (fun _ _ => ⟨0, 0, 0, 254⟩) createResult.ok).2
        = some (imageName 6000 4000 255, fun _ _ => ⟨0, 0, 0, 254⟩) :=
  ⟨(claim9 6000 4000 255 (fun _ _ => ⟨0, 0, 0, 254⟩) (createResult.fileError "no space")).1
      ⟨"no space", rfl⟩,
    (claim9 6000 4000 255 (fun _ _ => ⟨0, 0, 0, 254⟩) createResult.ok).2.1 rfl⟩

/-! ## Claim C10: the emitted colors -/

/-- For an escape count within the iteration bound, the Go color
computation (signed subtraction, truncated division, `uint8` cast) lands
exactly on the grayscale value `255 - n*255/maxIter` with no wrap-around. -/
theorem pixelColor_channels (maxIter n : Nat) (hM : 1 ≤ maxIter) (hn : n ≤ maxIter) :
    pixelColor maxIter n = ⟨255 - n * 255 / maxIter, 255 - n * 255 / maxIter,
      255 - n * 255 / maxIter, 254⟩ := by
  have hd : n * 255 / maxIter ≤ 255 := by
    have h1 : n * 255 ≤ maxIter * 255 := Nat.mul_le_mul_right 255 hn
    have h2 : n * 255 / maxIter ≤ maxIter * 255 / maxIter := Nat.div_le_div_right h1
    rw [Nat.mul_div_cancel_left 255 (by omega)] at h2
    exact h2
  have he : (n : Int) * 255 = ((n * 255 : Nat) : Int) := by
    push_cast
    ring
  have htd : Int.tdiv ((n : Int) * 255) (maxIter : Int)
      = ((n * 255 / maxIter : Nat) : Int) := by
    rw [he]
    rfl
  have hv : ∀ d : Nat, d ≤ 255 → ((255 - (d : Int)) % 256).toNat = 255 - d := by
    intro d hd2
    omega
  simp only [pixelColor, uint8OfInt, htd, hv _ hd]

/-- Claim C10: every PixelResult a worker emits carries the grayscale
color whose red, green and blue channels all equal
`255 - n*255/maxIter` (integer division, `n` the escape count of that
pixel's coordinate) and whose alpha channel is exactly 254 — never 255,
so no output pixel is fully opaque. -/
theorem claim10 (w h maxIter : Nat) (reS reE imS imE bnd : ℚ) (hM : 1 ≤ maxIter)
    (work : workRange) :
    ∀ p ∈ calculatorWorker w h maxIter reS reE imS imE bnd work,
      p.col.a = 254 ∧ p.col.a ≠ 255 ∧
      p.col.r = 255 - mandelbrotCalc maxIter bnd
          (coordToC w h reS reE imS imE p.x p.y) * 255 / maxIter ∧
      p.col.g = p.col.r ∧ p.col.b = p.col.r := by
  intro p hp
  rw [calculatorWorker] at hp
  simp only [List.mem_flatMap, List.mem_map] at hp
  obtain ⟨x, hx, y, hy, rfl⟩ := hp
  have hn : mandelbrotCalc maxIter bnd (coordToC w h reS reE imS imE x y) ≤ maxIter := by
    have hle := mandelbrotCalcAux_le bnd (coordToC w h reS reE imS imE x y)
      maxIter ⟨0, 0⟩ 0
    simpa [mandelbrotCalc] using hle
  rw [pixelColor_channels maxIter _ hM hn]
  refine ⟨rfl, ?_, rfl, rfl, rfl⟩
  dsimp only
  decide

/-- Witness for C10: the single pixel of a `1 × 1` image with
`maxIter = 1` carries alpha 254 and the claimed grayscale value. -/
theorem claim10_witness :
    (pixel.mk 0 0 ⟨0, 0, 0, 254⟩).col.a = 254 ∧
    (pixel.mk 0 0 ⟨0, 0, 0, 254⟩).col.r
      = 255 - mandelbrotCalc 1 0 (coordToC 1 1 0 0 0 0 0 0) * 255 / 1 := by
  have hlist : calculatorWorker 1 1 1 0 0 0 0 0 ⟨0, 1, 0, 1⟩
      = [pixel.mk 0 0 ⟨0, 0, 0, 254⟩] := by
    norm_num [calculatorWorker, intRange, List.range_succ, pixelColor, uint8OfInt,
      mandelbrotCalc, mandelbrotCalcAux, zStep, cmul, cadd, coordToC, Int.tdiv]
  have hmem : pixel.mk 0 0 ⟨0, 0, 0, 254⟩ ∈ calculatorWorker 1 1 1 0 0 0 0 0 ⟨0, 1, 0, 1⟩ := by
    rw [hlist]
    exact List.mem_singleton.mpr rfl
  have h := claim10 1 1 1 0 0 0 0 0 (by decide) ⟨0, 1, 0, 1⟩ _ hmem
  exact ⟨h.1, h.2.2.1⟩

/-- The shipped configuration (src/main.go lines 37-57) satisfies every
hypothesis used above: `numWorkTasks = 64` is a perfect square with
`r = 8`, and `r` evenly divides `width = 6000` and `height = 4000`. -/
theorem defaultConfig_valid :
    Nat.sqrt numWorkTasks = 8 ∧
    Nat.sqrt numWorkTasks * Nat.sqrt numWorkTasks = numWorkTasks ∧
    Nat.sqrt numWorkTasks ∣ width ∧ Nat.sqrt numWorkTasks ∣ height ∧
    numOfPixels = width * height := by
  have h64 : Nat.sqrt numWorkTasks = 8 := sqrt_val (by decide) (by decide)
  refine ⟨h64, ?_, ?_, ?_, rfl⟩
  · rw [h64]
    decide
  · rw [h64]
    decide
  · rw [h64]
    decide
